import Mathlib

/-!
Shallow embedding of `include/fast_matrix_market/write_body_threads.hpp`
(`fast_matrix_market::write_body_threads`).

The C++ routine is a single-threaded coordinator around a thread pool:

* it holds a FIFO `std::queue<std::future<std::string>> futures`;
* `inflight_count = 3 * pool.get_thread_count()`;
* priming loop: `for (batch_i = 0; batch_i < inflight_count && formatter.has_next(); ++batch_i)
    futures.push(pool.submit(formatter.next_chunk(options)));`
* drain loop: `while (!futures.empty())`: if `is_ready(futures.front())` then
  (refill: `if (formatter.has_next()) futures.push(pool.submit(formatter.next_chunk(options)));`),
  then `chunk = futures.front().get(); futures.pop(); os.write(chunk.c_str(), chunk.size());`
  else `std::this_thread::yield();`.

Embedding choices, each visible in the definitions below:

* The formatter (chunk source) is a list `chunks`: entry `i` is the outcome of the
  `i`-th work item's deferred computation — `Except.ok bytes`, or `Except.error code`
  when the worker's computation raises (which `std::future::get` rethrows).
  `formatter.has_next()` is `next < chunks.length`; `formatter.next_chunk` yields
  index `next` and advances `next`.
* Worker completion order is arbitrary: a schedule `ct : Nat → Nat` gives the loop-iteration
  time from which the future of submission `i` is ready; `is_ready` compares it with the
  coordinator's iteration counter `time` (one `tick` per drain-loop iteration).
* The sink is `std::ostream`: `os.write` with default exception mask does not throw.
  A failing write (schedule `sinkFail`, indexed by attempt number) sets the stream's
  failbit (`sinkFailed`); once the stream is failed, later `os.write` calls are no-ops
  (their sentry fails) and append nothing. The return value of `os.write` is never
  inspected by the coordinator, exactly as in the C++.
* A worker failure surfaces as a rethrown exception from `.get()`: the state records it
  in `err` and the loop unwinds (no pop, no write, no further iterations).
* Every externally visible action is also recorded as an event in `trace`, so that
  ordering properties (who is polled, when submission happens relative to the pop and
  the write) are provable. One drain-loop iteration is `drainStep`, defined as the
  fold of its event list `stepEvents` — the events are the instruction sequence of one
  iteration of the C++ `while` body, in program order.
-/

namespace FMM

/-- Observable actions of the coordinator, in the order the C++ statements perform them:
`hasNext b` = a call `formatter.has_next()` returning `b`; `nextChunk i` = the call
`formatter.next_chunk(options)` producing work item `i`; `submit i` = `pool.submit(...)`
plus `futures.push(...)` of that item's future; `checkReady i r` = `is_ready(futures.front())`
on the future of item `i` returning `r`; `yield` = `std::this_thread::yield()`;
`retrieveOk i b` / `retrieveErr i c` = `futures.front().get()` returning bytes `b`
resp. rethrowing the stored exception `c`; `pop i` = `futures.pop()`;
`append b att perf` = `os.write` of bytes `b`, where `att` says the stream was still good
(sentry succeeded, a write was attempted) and `perf` says the bytes actually landed;
`tick` = end of one drain-loop iteration. -/
inductive Ev where
  | hasNext (b : Bool)
  | nextChunk (i : Nat)
  | submit (i : Nat)
  | checkReady (i : Nat) (ready : Bool)
  | yield
  | retrieveOk (i : Nat) (bytes : List Nat)
  | retrieveErr (i : Nat) (code : Nat)
  | pop (i : Nat)
  | append (bytes : List Nat) (attempted performed : Bool)
  | tick
deriving DecidableEq, Repr

/-- The environment of one `write_body_threads` run: the formatter's chunk sequence
(each entry the eventual outcome of that chunk's computation), the workers'
completion-time schedule, and the sink's failure schedule (attempt `k` fails iff
`sinkFail k`). -/
structure Pipeline where
  chunks : List (Except Nat (List Nat))
  ct : Nat → Nat
  sinkFail : Nat → Bool

/-- Coordinator state: `queue` is `futures` (holding submission indices), `next` the
formatter's progress, `out` the bytes in the sink, `sinkFailed` the stream's failbit,
`writes` the number of attempted `os.write` calls, `time` the drain-iteration counter,
`err` a rethrown worker exception, `trace` the event log. -/
structure St where
  queue : List Nat
  next : Nat
  out : List Nat
  sinkFailed : Bool
  writes : Nat
  time : Nat
  err : Option Nat
  trace : List Ev
deriving DecidableEq, Repr

/-- The initial state of a run. -/
def St.init : St := ⟨[], 0, [], false, 0, 0, none, []⟩

/-- Modelled from the spec (the helper is declared in `fast_matrix_market.hpp`, which is
not part of the given sources): `is_ready(handle)` is a non-blocking completion check;
the future of submission `i` is ready once the schedule time `ct i` has been reached. -/
def is_ready (p : Pipeline) (i t : Nat) : Bool := decide (p.ct i ≤ t)

/-- The formatter's `has_next()`: more chunks exist while `next` has not consumed the list. -/
def has_next (p : Pipeline) (s : St) : Bool := decide (s.next < p.chunks.length)

/-- Bytes a chunk outcome contributes when written: the payload for a success,
nothing for a failure (a failing chunk is never written). -/
def chunkBytes : Except Nat (List Nat) → List Nat
  | Except.ok b => b
  | Except.error _ => []

/-- Effect of one event on the state (the event is also logged). `hasNext`, `checkReady`,
`yield` and `retrieveOk` are pure observations; `nextChunk` advances the formatter;
`submit` pushes the future; `pop` drops the front future; `retrieveErr` records the
rethrown exception; `append b att perf` performs the `os.write` bookkeeping
(attempted writes count, failbit, sink content); `tick` advances the iteration clock. -/
def applyEv (s : St) (e : Ev) : St :=
  match e with
  | Ev.hasNext b => { s with trace := s.trace ++ [Ev.hasNext b] }
  | Ev.nextChunk i => { s with next := s.next + 1, trace := s.trace ++ [Ev.nextChunk i] }
  | Ev.submit i => { s with queue := s.queue ++ [i], trace := s.trace ++ [Ev.submit i] }
  | Ev.checkReady i r => { s with trace := s.trace ++ [Ev.checkReady i r] }
  | Ev.yield => { s with trace := s.trace ++ [Ev.yield] }
  | Ev.retrieveOk i b => { s with trace := s.trace ++ [Ev.retrieveOk i b] }
  | Ev.retrieveErr i c => { s with err := some c, trace := s.trace ++ [Ev.retrieveErr i c] }
  | Ev.pop i => { s with queue := s.queue.tail, trace := s.trace ++ [Ev.pop i] }
  | Ev.append b att perf =>
      { s with out := if perf then s.out ++ b else s.out,
               writes := if att then s.writes + 1 else s.writes,
               sinkFailed := if att && !perf then true else s.sinkFailed,
               trace := s.trace ++ [Ev.append b att perf] }
  | Ev.tick => { s with time := s.time + 1, trace := s.trace ++ [Ev.tick] }

/-- Events of `if (formatter.has_next()) futures.push(pool.submit(formatter.next_chunk(options)));`
(the refill statement of the drain loop). -/
def refillEvents (p : Pipeline) (s : St) : List Ev :=
  if has_next p s then [Ev.hasNext true, Ev.nextChunk s.next, Ev.submit s.next]
  else [Ev.hasNext false]

/-- The instruction sequence of one iteration of the C++ drain loop `while (!futures.empty())`,
from the state at the top of the iteration, in program order.  If the front future is ready:
the refill, then `futures.front().get()` — which either rethrows the worker's exception
(no pop, no write, the loop unwinds) or yields the bytes, after which `futures.pop()` and
`os.write` happen.  If not ready: `std::this_thread::yield()`. -/
def stepEvents (p : Pipeline) (s : St) : List Ev :=
  match s.queue with
  | [] => []
  | i :: _ =>
    if is_ready p i s.time then
      match p.chunks.getD i (Except.error 0) with
      | Except.error c =>
          Ev.checkReady i true :: (refillEvents p s ++ [Ev.retrieveErr i c])
      | Except.ok b =>
          Ev.checkReady i true ::
            (refillEvents p s ++
              [Ev.retrieveOk i b, Ev.pop i,
               Ev.append b (!s.sinkFailed) (!s.sinkFailed && !p.sinkFail s.writes),
               Ev.tick])
    else [Ev.checkReady i false, Ev.yield, Ev.tick]

/-- One iteration of the drain loop: apply its instruction sequence. -/
def drainStep (p : Pipeline) (s : St) : St := (stepEvents p s).foldl applyEv s

/-- The priming loop
`for (batch_i = 0; batch_i < inflight_count && formatter.has_next(); ++batch_i)`,
recursing on the remaining iteration budget `inflight_count - batch_i` (so with budget 0
`formatter.has_next()` is not called, by the short-circuit `&&`). -/
def prime (p : Pipeline) : Nat → St → St
  | 0, s => s
  | n + 1, s =>
    if has_next p s then
      prime p n
        (([Ev.hasNext true, Ev.nextChunk s.next, Ev.submit s.next]).foldl applyEv s)
    else applyEv s (Ev.hasNext false)

/-- The drain loop `while (!futures.empty())`, with an explicit iteration budget:
`some` is a finished run (the loop guard failed, or a worker exception unwound it),
`none` means the budget was exhausted mid-run.  The loop continues only while no
exception has been rethrown and `futures` is nonempty. -/
def drain (p : Pipeline) : Nat → St → Option St
  | 0, s => if s.err = none ∧ s.queue ≠ [] then none else some s
  | f + 1, s =>
    if s.err = none ∧ s.queue ≠ [] then drain p f (drainStep p s) else some s

/-- State after `m` drain-loop iterations (stopping at the loop's exit condition):
the observable state at the `m`-th loop boundary. -/
def stepN (p : Pipeline) : Nat → St → St
  | 0, s => s
  | m + 1, s =>
    if s.err = none ∧ s.queue ≠ [] then stepN p m (drainStep p s) else s

/-- The whole routine `write_body_threads`: construct the pool, compute
`inflight_count = 3 * pool.get_thread_count()`, prime, drain.  `threadCount` is what
`pool.get_thread_count()` reports; `fuel` bounds the number of drain iterations. -/
def write_body_threads (p : Pipeline) (threadCount fuel : Nat) : Option St :=
  drain p fuel (prime p (3 * threadCount) St.init)

/-- Modelled from the spec (the pool class `BS::thread_pool_light` is a third-party
header not part of the given sources): the pool's reported thread count is the
requested `num_threads` when positive, otherwise the hardware concurrency, with a
floor of one thread when that too is zero. -/
def poolThreadCount (numThreads hardwareConcurrency : Nat) : Nat :=
  if numThreads > 0 then numThreads
  else if hardwareConcurrency > 0 then hardwareConcurrency else 1

/-- Number of `submit` events (futures pushed) in an event list. -/
def countSubmits (l : List Ev) : Nat :=
  l.countP (fun e => match e with | Ev.submit _ => true | _ => false)

/-- Number of `pop` events (futures removed) in an event list. -/
def countPops (l : List Ev) : Nat :=
  l.countP (fun e => match e with | Ev.pop _ => true | _ => false)

/-- Number of attempted `os.write` calls in an event list. -/
def countAppends (l : List Ev) : Nat :=
  l.countP (fun e => match e with | Ev.append _ _ _ => true | _ => false)

/-- Drain-loop termination measure: chunks the formatter has not yet produced,
plus futures still in the queue. -/
def mu (p : Pipeline) (s : St) : Nat := (p.chunks.length - s.next) + s.queue.length

/-- Structural invariant of the coordinator: the futures queue holds exactly the
consecutive submission indices from the first not-yet-popped chunk up to `next - 1`
(insertion order = creation order), the formatter never ran ahead of the chunk list,
and (once primed with a positive window) an empty queue means the source is exhausted. -/
def Coord (p : Pipeline) (s : St) : Prop :=
  s.queue = List.range' (s.next - s.queue.length) s.queue.length ∧
  s.queue.length ≤ s.next ∧
  s.next ≤ p.chunks.length ∧
  (s.queue = [] → s.next = p.chunks.length)

/-- One `os.write` of one chunk's bytes against the modelled stream state
`(content, failbit, attempts)`: a failed stream ignores the write; otherwise the
attempt either trips the failbit (no bytes land) or appends the bytes. -/
def sinkStep (p : Pipeline) : (List Nat × Bool × Nat) → List Nat → (List Nat × Bool × Nat)
  | (o, failed, w), b =>
    if failed then (o, failed, w)
    else if p.sinkFail w then (o, true, w + 1)
    else (o ++ b, false, w + 1)

/-- Stream state after writing a sequence of chunks, starting from a fresh stream. -/
def sinkFold (p : Pipeline) (bs : List (List Nat)) : (List Nat × Bool × Nat) :=
  bs.foldl (sinkStep p) ([], false, 0)

/-- Number of chunks already popped from the futures queue (equivalently, the index of
the chunk the coordinator will write next). -/
def popped (s : St) : Nat := s.next - s.queue.length

/-- Full data invariant of a running (non-aborted) coordinator: queue shape, all popped
chunks were successes, and the sink state is the fold of their bytes. -/
def Gen (p : Pipeline) (s : St) : Prop :=
  Coord p s ∧
  (∀ m, m < popped s → ∃ b, p.chunks.getD m (Except.error 0) = Except.ok b) ∧
  (s.out, s.sinkFailed, s.writes) = sinkFold p ((p.chunks.take (popped s)).map chunkBytes)

/-- Trace well-formedness: every `next_chunk` call is immediately preceded by a
`has_next` call that returned `true`. -/
def GoodTrace (t : List Ev) : Prop :=
  ∀ n i, t.get? n = some (Ev.nextChunk i) → 1 ≤ n ∧ t.get? (n - 1) = some (Ev.hasNext true)

/-- A pipeline of `n` successful chunks, chunk `i` being the single byte `i + 1`; all
futures complete instantly and the sink never fails. -/
def pOkN (n : Nat) : Pipeline :=
  { chunks := (List.range n).map (fun i => Except.ok [i + 1]),
    ct := fun _ => 0, sinkFail := fun _ => false }

/-- The concrete scenario of the spec: five chunks `A B C D E`, two workers, and a
completion schedule that finishes later chunks first (reverse completion order). -/
def pScr : Pipeline :=
  { chunks := [Except.ok [65], Except.ok [66], Except.ok [67], Except.ok [68], Except.ok [69]],
    ct := fun i => 5 - i, sinkFail := fun _ => false }

/-- Five chunks whose third computation fails with code 77; the sink never fails. -/
def pErr : Pipeline :=
  { chunks := [Except.ok [1], Except.ok [2], Except.error 77, Except.ok [4], Except.ok [5]],
    ct := fun _ => 0, sinkFail := fun _ => false }

/-- Seven successful chunks over a sink whose very first write fails. -/
def pSink : Pipeline :=
  { chunks := (List.range 7).map (fun i => Except.ok [i + 1]),
    ct := fun _ => 0, sinkFail := fun k => k == 0 }

end FMM

namespace FMM

theorem applyEv_trace (s : St) (e : Ev) : (applyEv s e).trace = s.trace ++ [e] := by
  cases e <;> rfl

theorem foldl_applyEv_trace (evs : List Ev) : ∀ s : St,
    (evs.foldl applyEv s).trace = s.trace ++ evs := by
  induction evs with
  | nil => intro s; simp [List.foldl]
  | cons e evs ih =>
      intro s
      simp [List.foldl, ih, applyEv_trace]

theorem drainStep_nil {p : Pipeline} {s : St} (hq : s.queue = []) :
    drainStep p s = s := by
  obtain ⟨q, nx, o, sf, w, t, er, tr⟩ := s
  simp only at hq
  subst hq
  rfl

theorem drainStep_yield {p : Pipeline} {s : St} {i : Nat} {rest : List Nat}
    (hq : s.queue = i :: rest) (hr : is_ready p i s.time = false) :
    drainStep p s =
      { s with time := s.time + 1,
               trace := s.trace ++ [Ev.checkReady i false, Ev.yield, Ev.tick] } := by
  obtain ⟨q, nx, o, sf, w, t, er, tr⟩ := s
  simp only at hq hr ⊢
  subst hq
  simp [drainStep, stepEvents, hr, applyEv]

end FMM

namespace FMM

theorem drainStep_ok_refill {p : Pipeline} {s : St} {i : Nat} {rest : List Nat} {b : List Nat}
    (hq : s.queue = i :: rest) (hr : is_ready p i s.time = true)
    (hn : has_next p s = true)
    (hc : p.chunks.getD i (Except.error 0) = Except.ok b) :
    drainStep p s =
      { s with queue := rest ++ [s.next], next := s.next + 1,
               out := if (!s.sinkFailed && !p.sinkFail s.writes) then s.out ++ b else s.out,
               writes := if !s.sinkFailed then s.writes + 1 else s.writes,
               sinkFailed := if (!s.sinkFailed && p.sinkFail s.writes) then true else s.sinkFailed,
               time := s.time + 1,
               trace := s.trace ++
                 [Ev.checkReady i true, Ev.hasNext true, Ev.nextChunk s.next, Ev.submit s.next,
                  Ev.retrieveOk i b, Ev.pop i,
                  Ev.append b (!s.sinkFailed) (!s.sinkFailed && !p.sinkFail s.writes), Ev.tick] } := by
  obtain ⟨q, nx, o, sf, w, t, er, tr⟩ := s
  simp only at hq hr hn hc ⊢
  subst hq
  have hc' : p.chunks[i]?.getD (Except.error 0) = Except.ok b := by
    simpa [List.getD_eq_getElem?_getD] using hc
  simp [drainStep, stepEvents, refillEvents, hr, hn, hc', applyEv]
  cases sf <;> cases hpf : p.sinkFail w <;> rfl

end FMM

namespace FMM

theorem drainStep_ok_norefill {p : Pipeline} {s : St} {i : Nat} {rest : List Nat} {b : List Nat}
    (hq : s.queue = i :: rest) (hr : is_ready p i s.time = true)
    (hn : has_next p s = false)
    (hc : p.chunks.getD i (Except.error 0) = Except.ok b) :
    drainStep p s =
      { s with queue := rest,
               out := if (!s.sinkFailed && !p.sinkFail s.writes) then s.out ++ b else s.out,
               writes := if !s.sinkFailed then s.writes + 1 else s.writes,
               sinkFailed := if (!s.sinkFailed && p.sinkFail s.writes) then true else s.sinkFailed,
               time := s.time + 1,
               trace := s.trace ++
                 [Ev.checkReady i true, Ev.hasNext false,
                  Ev.retrieveOk i b, Ev.pop i,
                  Ev.append b (!s.sinkFailed) (!s.sinkFailed && !p.sinkFail s.writes), Ev.tick] } := by
  obtain ⟨q, nx, o, sf, w, t, er, tr⟩ := s
  simp only at hq hr hn hc ⊢
  subst hq
  have hc' : p.chunks[i]?.getD (Except.error 0) = Except.ok b := by
    simpa [List.getD_eq_getElem?_getD] using hc
  simp [drainStep, stepEvents, refillEvents, hr, hn, hc', applyEv]
  cases sf <;> cases hpf : p.sinkFail w <;> rfl

theorem drainStep_err_refill {p : Pipeline} {s : St} {i : Nat} {rest : List Nat} {c : Nat}
    (hq : s.queue = i :: rest) (hr : is_ready p i s.time = true)
    (hn : has_next p s = true)
    (hc : p.chunks.getD i (Except.error 0) = Except.error c) :
    drainStep p s =
      { s with queue := i :: rest ++ [s.next], next := s.next + 1,
               err := some c,
               trace := s.trace ++
                 [Ev.checkReady i true, Ev.hasNext true, Ev.nextChunk s.next, Ev.submit s.next,
                  Ev.retrieveErr i c] } := by
  obtain ⟨q, nx, o, sf, w, t, er, tr⟩ := s
  simp only at hq hr hn hc ⊢
  subst hq
  have hc' : p.chunks[i]?.getD (Except.error 0) = Except.error c := by
    simpa [List.getD_eq_getElem?_getD] using hc
  simp [drainStep, stepEvents, refillEvents, hr, hn, hc', applyEv]

theorem drainStep_err_norefill {p : Pipeline} {s : St} {i : Nat} {rest : List Nat} {c : Nat}
    (hq : s.queue = i :: rest) (hr : is_ready p i s.time = true)
    (hn : has_next p s = false)
    (hc : p.chunks.getD i (Except.error 0) = Except.error c) :
    drainStep p s =
      { s with err := some c,
               trace := s.trace ++
                 [Ev.checkReady i true, Ev.hasNext false, Ev.retrieveErr i c] } := by
  obtain ⟨q, nx, o, sf, w, t, er, tr⟩ := s
  simp only at hq hr hn hc ⊢
  subst hq
  have hc' : p.chunks[i]?.getD (Except.error 0) = Except.error c := by
    simpa [List.getD_eq_getElem?_getD] using hc
  simp [drainStep, stepEvents, refillEvents, hr, hn, hc', applyEv]

end FMM

namespace FMM

theorem prime_succ (p : Pipeline) (n : Nat) (s : St) :
    prime p (n + 1) s =
      if has_next p s then
        prime p n
          { s with queue := s.queue ++ [s.next], next := s.next + 1,
                   trace := s.trace ++
                     [Ev.hasNext true, Ev.nextChunk s.next, Ev.submit s.next] }
      else { s with trace := s.trace ++ [Ev.hasNext false] } := by
  obtain ⟨q, nx, o, sf, w, t, er, tr⟩ := s
  by_cases h : has_next p ⟨q, nx, o, sf, w, t, er, tr⟩
  · simp [prime, h, applyEv]
  · simp [prime, h, applyEv]

theorem prime_spec (p : Pipeline) : ∀ (n : Nat) (s : St),
    (prime p n s).queue = s.queue ++ List.range' s.next (min n (p.chunks.length - s.next)) ∧
    (prime p n s).next = s.next + min n (p.chunks.length - s.next) ∧
    (prime p n s).out = s.out ∧ (prime p n s).err = s.err ∧
    (prime p n s).sinkFailed = s.sinkFailed ∧ (prime p n s).writes = s.writes ∧
    (prime p n s).time = s.time := by
  intro n
  induction n with
  | zero => intro s; simp [prime]
  | succ n ih =>
      intro s
      rw [prime_succ]
      by_cases h : has_next p s
      · have hlt : s.next < p.chunks.length := by
          simpa [has_next] using h
        rw [if_pos h]
        obtain ⟨h1, h2, h3, h4, h5, h6, h7⟩ :=
          ih { s with queue := s.queue ++ [s.next], next := s.next + 1,
                      trace := s.trace ++
                        [Ev.hasNext true, Ev.nextChunk s.next, Ev.submit s.next] }
        refine ⟨?_, ?_, by simpa using h3, by simpa using h4, by simpa using h5,
          by simpa using h6, by simpa using h7⟩
        · rw [h1]
          simp only
          have hmin : min (n + 1) (p.chunks.length - s.next) =
              (min n (p.chunks.length - (s.next + 1))) + 1 := by omega
          rw [hmin, List.range'_succ]
          simp
        · rw [h2]
          simp only
          omega
      · have hge : p.chunks.length ≤ s.next := by
          simp [has_next] at h; omega
        rw [if_neg h]
        have hmin : min (n + 1) (p.chunks.length - s.next) = 0 := by omega
        simp [hmin]

end FMM

namespace FMM

theorem drain_inv (p : Pipeline) (P : St → Prop)
    (hstep : ∀ s, P s → s.err = none → s.queue ≠ [] → P (drainStep p s)) :
    ∀ (f : Nat) (s s' : St), drain p f s = some s' → P s →
      P s' ∧ (s'.err = none → s'.queue = []) := by
  intro f
  induction f with
  | zero =>
      intro s s' h hp
      simp only [drain] at h
      split at h
      · exact absurd h (by simp)
      · rename_i hcond
        cases h
        refine ⟨hp, ?_⟩
        intro he
        by_contra hq
        exact hcond ⟨he, hq⟩
  | succ f ih =>
      intro s s' h hp
      simp only [drain] at h
      split at h
      · rename_i hcond
        exact ih _ _ h (hstep s hp hcond.1 hcond.2)
      · rename_i hcond
        cases h
        refine ⟨hp, ?_⟩
        intro he
        by_contra hq
        exact hcond ⟨he, hq⟩

theorem stepN_inv (p : Pipeline) (P : St → Prop)
    (hstep : ∀ s, P s → s.err = none → s.queue ≠ [] → P (drainStep p s)) :
    ∀ (m : Nat) (s : St), P s → P (stepN p m s) := by
  intro m
  induction m with
  | zero => intro s hp; exact hp
  | succ m ih =>
      intro s hp
      simp only [stepN]
      split
      · rename_i hcond
        exact ih _ (hstep s hp hcond.1 hcond.2)
      · exact hp


theorem drain_term_aux (p : Pipeline) : ∀ (n : Nat) (s : St), mu p s ≤ n →
    ∃ f s', drain p f s = some s' := by
  intro n
  induction n with
  | zero =>
      intro s hmu
      refine ⟨0, s, ?_⟩
      have hq : s.queue = [] := by
        have h1 : s.queue.length = 0 := by
          simp only [mu] at hmu
          omega
        exact List.length_eq_zero.mp h1
      simp [drain, hq]
  | succ n ih =>
      intro s hmu
      rcases hq : s.queue with _ | ⟨i, rest⟩
      · exact ⟨0, s, by simp [drain, hq]⟩
      rcases herr : s.err with _ | c
      case succ.cons.some => exact ⟨0, s, by simp [drain, herr]⟩
      -- err = none, queue = i :: rest : ready-now progress, or yield towards readiness
      have hready : ∀ s : St, s.queue = i :: rest → s.err = none → mu p s ≤ n + 1 →
          is_ready p i s.time = true → ∃ f s', drain p f s = some s' := by
        intro s hq herr hmu hr
        rcases hc : p.chunks.getD i (Except.error 0) with c | b
        · -- worker failure: one more iteration, then the loop unwinds
          by_cases hn : has_next p s = true
          · have hd := drainStep_err_refill hq hr hn hc
            exact ⟨1, drainStep p s, by simp [drain, hq, herr, hd]⟩
          · have hd := drainStep_err_norefill hq hr (by simpa using hn) hc
            exact ⟨1, drainStep p s, by simp [drain, hq, herr, hd]⟩
        · -- success: the measure drops
          have hql : s.queue.length = rest.length + 1 := by rw [hq]; rfl
          have hmu' : mu p (drainStep p s) ≤ n := by
            by_cases hn : has_next p s = true
            · rw [drainStep_ok_refill hq hr hn hc]
              have hlt : s.next < p.chunks.length := by simpa [has_next] using hn
              simp only [mu] at hmu
              simp [mu]
              omega
            · rw [drainStep_ok_norefill hq hr (by simpa using hn) hc]
              simp only [mu] at hmu
              simp [mu]
              omega
          obtain ⟨f, s', hf⟩ := ih _ hmu'
          refine ⟨f + 1, s', ?_⟩
          simpa [drain, hq, herr] using hf
      -- induction on the time until the front future is ready
      have hyield : ∀ (d : Nat) (s : St), s.queue = i :: rest → s.err = none →
          mu p s ≤ n + 1 → p.ct i ≤ s.time + d → ∃ f s', drain p f s = some s' := by
        intro d
        induction d with
        | zero =>
            intro s hq herr hmu hd
            exact hready s hq herr hmu (by simp [is_ready]; omega)
        | succ d ihd =>
            intro s hq herr hmu hd
            by_cases hr : is_ready p i s.time = true
            · exact hready s hq herr hmu hr
            · have hstep := drainStep_yield hq (by simpa using hr)
              obtain ⟨f, s', hf⟩ := ihd (drainStep p s)
                (by rw [hstep]; simpa using hq)
                (by rw [hstep]; simpa using herr)
                (by rw [hstep]; simpa [mu] using hmu)
                (by rw [hstep]; simp; omega)
              refine ⟨f + 1, s', ?_⟩
              simpa [drain, hq, herr] using hf
      exact hyield (p.ct i) s hq herr hmu (by omega)

theorem drain_term (p : Pipeline) (s : St) : ∃ f s', drain p f s = some s' :=
  drain_term_aux p (mu p s) s le_rfl

end FMM

namespace FMM

theorem drainStep_trace (p : Pipeline) (s : St) :
    (drainStep p s).trace = s.trace ++ stepEvents p s :=
  foldl_applyEv_trace _ s

theorem coord_head {p : Pipeline} {s : St} {i : Nat} {rest : List Nat}
    (hc : Coord p s) (hq : s.queue = i :: rest) :
    i = popped s ∧ rest = List.range' (popped s + 1) rest.length ∧
    popped s < p.chunks.length ∧ s.next = popped s + rest.length + 1 := by
  obtain ⟨h1, h2, h3, _⟩ := hc
  rw [hq] at h1 h2
  simp only [List.length_cons] at h1 h2
  rw [List.range'_succ] at h1
  have hi : i = s.next - (rest.length + 1) := by
    exact (List.cons.injEq _ _ _ _ ▸ h1).1
  have hrest : rest = List.range' (s.next - (rest.length + 1) + 1) rest.length := by
    exact (List.cons.injEq _ _ _ _ ▸ h1).2
  have hpop : popped s = s.next - (rest.length + 1) := by
    simp [popped, hq]
  refine ⟨by rw [hi, hpop], by rw [hpop]; exact hrest, by omega, by omega⟩

theorem take_succ_getD {α β : Type} (l : List α) (m : Nat) (hm : m < l.length)
    (d : α) (f : α → β) :
    (l.take (m + 1)).map f = (l.take m).map f ++ [f (l.getD m d)] := by
  rw [List.take_succ]
  have h1 : l[m]? = some (l.getD m d) := by
    rw [List.getElem?_eq_getElem hm]
    simp [List.getD_eq_getElem?_getD, List.getElem?_eq_getElem hm]
  rw [h1]
  simp

theorem sinkFold_concat (p : Pipeline) (bs : List (List Nat)) (b : List Nat) :
    sinkFold p (bs ++ [b]) = sinkStep p (sinkFold p bs) b := by
  simp [sinkFold, List.foldl_append]

theorem gen_step (p : Pipeline) {s : St}
    (hg : Gen p s) (he : s.err = none) (hq : s.queue ≠ [])
    (hok : ∃ b, p.chunks.getD (popped s) (Except.error 0) = Except.ok b) :
    Gen p (drainStep p s) ∧ (drainStep p s).err = none ∧
    popped s ≤ popped (drainStep p s) ∧ popped (drainStep p s) ≤ popped s + 1 := by
  obtain ⟨hcoord, hokinv, hsink⟩ := hg
  rcases hqe : s.queue with _ | ⟨i, rest⟩
  · exact absurd hqe hq
  have hq2 : s.queue.length ≤ s.next := hcoord.2.1
  have hle : s.next ≤ p.chunks.length := hcoord.2.2.1
  obtain ⟨hi, hrest, hwlt, hnext⟩ := coord_head hcoord hqe
  have hsql : s.queue.length = rest.length + 1 := by rw [hqe]; rfl
  have hwdef : popped s = s.next - s.queue.length := rfl
  obtain ⟨b, hb⟩ := hok
  by_cases hr : is_ready p i s.time = true
  · -- front future ready: maybe refill, then pop and write
    have hbi : p.chunks.getD i (Except.error 0) = Except.ok b := by rw [hi]; exact hb
    have htake : ((p.chunks.take (popped s + 1)).map chunkBytes) =
        (p.chunks.take (popped s)).map chunkBytes ++ [b] := by
      rw [take_succ_getD p.chunks (popped s) hwlt (Except.error 0) chunkBytes, hb]
      rfl
    have hsinkstep : ∀ o : List Nat, ∀ sf : Bool, ∀ w : Nat,
        ((if (!sf && !p.sinkFail w) then o ++ b else o : List Nat),
         (if (!sf && p.sinkFail w) then true else sf : Bool),
         (if !sf then w + 1 else w : Nat)) = sinkStep p (o, sf, w) b := by
      intro o sf w
      cases sf <;> cases hpf : p.sinkFail w <;> simp [sinkStep, hpf]
    by_cases hn : has_next p s = true
    · -- refill then pop
      have hlt : s.next < p.chunks.length := by simpa [has_next] using hn
      have hT := drainStep_ok_refill hqe hr hn hbi
      have htq : (drainStep p s).queue = rest ++ [s.next] := by rw [hT]
      have htn : (drainStep p s).next = s.next + 1 := by rw [hT]
      have hte : (drainStep p s).err = s.err := by rw [hT]
      have hto : (drainStep p s).out =
          (if (!s.sinkFailed && !p.sinkFail s.writes) then s.out ++ b else s.out) := by rw [hT]
      have htw : (drainStep p s).writes =
          (if !s.sinkFailed then s.writes + 1 else s.writes) := by rw [hT]
      have htf : (drainStep p s).sinkFailed =
          (if (!s.sinkFailed && p.sinkFail s.writes) then true else s.sinkFailed) := by rw [hT]
      have hpop' : popped (drainStep p s) = popped s + 1 := by
        have hwdef' : popped (drainStep p s) =
            (drainStep p s).next - (drainStep p s).queue.length := rfl
        rw [htq, htn] at hwdef'
        simp only [List.length_append, List.length_cons, List.length_nil] at hwdef'
        omega
      refine ⟨⟨⟨?_, ?_, ?_, ?_⟩, ?_, ?_⟩, by rw [hte]; exact he, by omega, by omega⟩
      · rw [htq, htn]
        simp only [List.length_append, List.length_cons, List.length_nil]
        have he1 : s.next + 1 - (rest.length + 1 + 0) = popped s + 1 := by omega
        rw [he1, List.range'_1_concat]
        have hsn : popped s + 1 + rest.length = s.next := by omega
        rw [hsn, ← hrest]
      · rw [htq, htn]
        simp only [List.length_append, List.length_cons, List.length_nil]
        omega
      · rw [htn]; omega
      · intro hcontra
        rw [htq] at hcontra
        simp at hcontra
      · intro m hm
        rw [hpop'] at hm
        rcases Nat.lt_or_ge m (popped s) with h | h
        · exact hokinv m h
        · have hmeq : m = popped s := by omega
          exact ⟨b, hmeq ▸ hb⟩
      · rw [hpop', htake, sinkFold_concat, ← hsink, hto, htf, htw]
        exact hsinkstep s.out s.sinkFailed s.writes
    · -- pop without refill
      have hn' : has_next p s = false := by simpa using hn
      have hge : p.chunks.length ≤ s.next := by
        simp [has_next] at hn'
        omega
      have hT := drainStep_ok_norefill hqe hr hn' hbi
      have htq : (drainStep p s).queue = rest := by rw [hT]
      have htn : (drainStep p s).next = s.next := by rw [hT]
      have hte : (drainStep p s).err = s.err := by rw [hT]
      have hto : (drainStep p s).out =
          (if (!s.sinkFailed && !p.sinkFail s.writes) then s.out ++ b else s.out) := by rw [hT]
      have htw : (drainStep p s).writes =
          (if !s.sinkFailed then s.writes + 1 else s.writes) := by rw [hT]
      have htf : (drainStep p s).sinkFailed =
          (if (!s.sinkFailed && p.sinkFail s.writes) then true else s.sinkFailed) := by rw [hT]
      have hpop' : popped (drainStep p s) = popped s + 1 := by
        have hwdef' : popped (drainStep p s) =
            (drainStep p s).next - (drainStep p s).queue.length := rfl
        rw [htq, htn] at hwdef'
        omega
      refine ⟨⟨⟨?_, ?_, ?_, ?_⟩, ?_, ?_⟩, by rw [hte]; exact he, by omega, by omega⟩
      · rw [htq, htn]
        have he1 : s.next - rest.length = popped s + 1 := by omega
        rw [he1]
        exact hrest
      · rw [htq, htn]
        omega
      · rw [htn]; omega
      · intro hcontra
        rw [htn]
        omega
      · intro m hm
        rw [hpop'] at hm
        rcases Nat.lt_or_ge m (popped s) with h | h
        · exact hokinv m h
        · have hmeq : m = popped s := by omega
          exact ⟨b, hmeq ▸ hb⟩
      · rw [hpop', htake, sinkFold_concat, ← hsink, hto, htf, htw]
        exact hsinkstep s.out s.sinkFailed s.writes
  · -- front not ready: yield
    have hr' : is_ready p i s.time = false := by simpa using hr
    rw [drainStep_yield hqe hr']
    exact ⟨⟨hcoord, hokinv, hsink⟩, he, Nat.le_refl _, Nat.le_succ _⟩

end FMM

namespace FMM

theorem sinkFold_ok_aux (p : Pipeline) (hgood : ∀ k, p.sinkFail k = false) :
    ∀ (bs : List (List Nat)) (o : List Nat) (w : Nat),
      bs.foldl (sinkStep p) (o, false, w) = (o ++ bs.flatten, false, w + bs.length) := by
  intro bs
  induction bs with
  | nil => intro o w; simp
  | cons b bs ih =>
      intro o w
      have hstep : sinkStep p (o, false, w) b = (o ++ b, false, w + 1) := by
        simp [sinkStep, hgood w]
      simp only [List.foldl, hstep, ih]
      simp
      omega

theorem sinkFold_ok (p : Pipeline) (hgood : ∀ k, p.sinkFail k = false)
    (bs : List (List Nat)) :
    sinkFold p bs = (bs.flatten, false, bs.length) := by
  have h := sinkFold_ok_aux p hgood bs [] 0
  simpa [sinkFold] using h

theorem gen_prime (p : Pipeline) (n : Nat) (hn : 1 ≤ n) :
    Gen p (prime p n St.init) ∧ (prime p n St.init).err = none ∧
    popped (prime p n St.init) = 0 := by
  obtain ⟨hq0, hnx0, ho0, he0, hsf0, hw0, _⟩ := prime_spec p n St.init
  have hq : (prime p n St.init).queue = List.range' 0 (min n p.chunks.length) := by
    rw [hq0]; rfl
  have hnx : (prime p n St.init).next = min n p.chunks.length := by
    rw [hnx0]; simp [St.init]
  have ho : (prime p n St.init).out = [] := by rw [ho0]; rfl
  have he : (prime p n St.init).err = none := by rw [he0]; rfl
  have hsf : (prime p n St.init).sinkFailed = false := by rw [hsf0]; rfl
  have hw : (prime p n St.init).writes = 0 := by rw [hw0]; rfl
  have hql : (prime p n St.init).queue.length = min n p.chunks.length := by
    rw [hq]
    exact List.length_range' _ _ _
  have hpop0 : popped (prime p n St.init) = 0 := by
    simp only [popped, hql, hnx]
    omega
  refine ⟨⟨⟨?_, ?_, ?_, ?_⟩, ?_, ?_⟩, he, hpop0⟩
  · rw [hq, hnx]
    simp [List.length_range', Nat.sub_self]
  · rw [hql, hnx]
  · rw [hnx]; omega
  · intro hnil
    rw [hnil] at hql
    simp at hql
    rw [hnx]
    omega
  · intro m hm
    rw [hpop0] at hm
    omega
  · rw [hpop0]
    simp [sinkFold, ho, hsf, hw]

theorem gen_step_allok (p : Pipeline)
    (hallok : ∀ m, m < p.chunks.length →
      ∃ b, p.chunks.getD m (Except.error 0) = Except.ok b) :
    ∀ s : St, Gen p s ∧ s.err = none → s.err = none → s.queue ≠ [] →
      Gen p (drainStep p s) ∧ (drainStep p s).err = none := by
  intro s hs he hq
  rcases hqe : s.queue with _ | ⟨i, rest⟩
  · exact absurd hqe hq
  have hwlt : popped s < p.chunks.length := (coord_head hs.1.1 hqe).2.2.1
  have h := gen_step p hs.1 he hq (hallok _ hwlt)
  exact ⟨h.1, h.2.1⟩

theorem mem_of_getD_valid {l : List (Except Nat (List Nat))} {m : Nat}
    (hm : m < l.length) : l.getD m (Except.error 0) ∈ l := by
  rw [List.getD_eq_getElem?_getD, List.getElem?_eq_getElem hm]
  exact List.getElem_mem hm

/-- C1: for every chunk source and every worker completion order, a completed run of
`write_body_threads` (with the real pool's positive thread count and a sink that does
not fail) appends to the sink exactly the concatenation of the chunks' byte sequences
in submission order — never completion order — and for zero chunks it appends nothing. -/
theorem c1_ordered_output (p : Pipeline) (tc fuel : Nat) (s' : St)
    (hok : ∀ c ∈ p.chunks, ∃ b, c = Except.ok b)
    (hsink : ∀ k, p.sinkFail k = false)
    (htc : 1 ≤ tc)
    (hrun : write_body_threads p tc fuel = some s') :
    s'.err = none ∧ s'.out = (p.chunks.map chunkBytes).flatten := by
  have hallok : ∀ m, m < p.chunks.length →
      ∃ b, p.chunks.getD m (Except.error 0) = Except.ok b := by
    intro m hm
    exact hok _ (mem_of_getD_valid hm)
  have hprimed := gen_prime p (3 * tc) (by omega)
  unfold write_body_threads at hrun
  have hinv := drain_inv p (fun s => Gen p s ∧ s.err = none)
    (gen_step_allok p hallok) fuel _ s' hrun ⟨hprimed.1, hprimed.2.1⟩
  obtain ⟨⟨hgen, herr⟩, hstop⟩ := hinv
  have hnil : s'.queue = [] := hstop herr
  have hlen : s'.next = p.chunks.length := hgen.1.2.2.2 hnil
  have hpop : popped s' = p.chunks.length := by
    simp [popped, hnil, hlen]
  have hsinkeq := hgen.2.2
  rw [hpop] at hsinkeq
  rw [List.take_length] at hsinkeq
  rw [sinkFold_ok p hsink] at hsinkeq
  exact ⟨herr, congrArg Prod.fst hsinkeq⟩

/-- Witness for C1: the spec's concrete scenario — five chunks `A B C D E`, two workers
(window six), workers finishing in reverse order — still writes `A B C D E`. -/
theorem c1_ordered_output_witness :
    (∀ c ∈ pScr.chunks, ∃ b, c = Except.ok b) ∧
    ((write_body_threads pScr 2 12).getD St.init).out =
      (pScr.chunks.map chunkBytes).flatten := by
  refine ⟨?_, ?_⟩
  · intro c hc
    simp only [pScr, List.mem_cons] at hc
    rcases hc with rfl | rfl | rfl | rfl | rfl | h
    · exact ⟨_, rfl⟩
    · exact ⟨_, rfl⟩
    · exact ⟨_, rfl⟩
    · exact ⟨_, rfl⟩
    · exact ⟨_, rfl⟩
    · simp at h
  · refine (c1_ordered_output pScr 2 40 _ ?_ (fun k => rfl) (by omega) ?_).2
    · intro c hc
      simp only [pScr, List.mem_cons] at hc
      rcases hc with rfl | rfl | rfl | rfl | rfl | h
      · exact ⟨_, rfl⟩
      · exact ⟨_, rfl⟩
      · exact ⟨_, rfl⟩
      · exact ⟨_, rfl⟩
      · exact ⟨_, rfl⟩
      · simp at h
    · decide

end FMM

namespace FMM

theorem prime_trace_inv (p : Pipeline) (P : List Ev → Prop)
    (hpush : ∀ t (j : Nat), P t → P (t ++ [Ev.hasNext true, Ev.nextChunk j, Ev.submit j]))
    (hfalse : ∀ t, P t → P (t ++ [Ev.hasNext false])) :
    ∀ (n : Nat) (s : St), P s.trace → P (prime p n s).trace := by
  intro n
  induction n with
  | zero => intro s hP; exact hP
  | succ n ih =>
      intro s hP
      rw [prime_succ]
      by_cases h : has_next p s
      · rw [if_pos h]
        exact ih _ (hpush s.trace s.next hP)
      · rw [if_neg h]
        exact hfalse s.trace hP

/-- C2: if the worker computing chunk `j` (0-based; chunk `k = j + 1` of the spec's
1-based count) fails while all earlier chunks succeed, the failure is rethrown to the
caller exactly once — the run ends with that error, the trace ends at the failing
retrieval with no other failed retrieval anywhere — the sink holds exactly the bytes of
chunks before `j`, and nothing is submitted or written after the failure is observed. -/
theorem c2_worker_failure (p : Pipeline) (tc fuel : Nat) (s' : St) (j c : Nat)
    (hj : j < p.chunks.length)
    (hjc : p.chunks.getD j (Except.error 0) = Except.error c)
    (hpre : ∀ m, m < j → ∃ b, p.chunks.getD m (Except.error 0) = Except.ok b)
    (hsink : ∀ k, p.sinkFail k = false)
    (htc : 1 ≤ tc)
    (hrun : write_body_threads p tc fuel = some s') :
    s'.err = some c ∧
    s'.out = ((p.chunks.take j).map chunkBytes).flatten ∧
    (∃ t, s'.trace = t ++ [Ev.retrieveErr j c] ∧ ∀ i' c', Ev.retrieveErr i' c' ∉ t) := by
  have hstep : ∀ s : St,
      ((s.err = none ∧ Gen p s ∧ popped s ≤ j ∧ (∀ i' c', Ev.retrieveErr i' c' ∉ s.trace)) ∨
       (s.err = some c ∧
        ((s.out, s.sinkFailed, s.writes) =
          sinkFold p ((p.chunks.take j).map chunkBytes)) ∧
        (∃ t, s.trace = t ++ [Ev.retrieveErr j c] ∧ ∀ i' c', Ev.retrieveErr i' c' ∉ t))) →
      s.err = none → s.queue ≠ [] →
      ((drainStep p s).err = none ∧ Gen p (drainStep p s) ∧ popped (drainStep p s) ≤ j ∧
        (∀ i' c', Ev.retrieveErr i' c' ∉ (drainStep p s).trace)) ∨
      ((drainStep p s).err = some c ∧
       (((drainStep p s).out, (drainStep p s).sinkFailed, (drainStep p s).writes) =
         sinkFold p ((p.chunks.take j).map chunkBytes)) ∧
       (∃ t, (drainStep p s).trace = t ++ [Ev.retrieveErr j c] ∧
         ∀ i' c', Ev.retrieveErr i' c' ∉ t)) := by
    intro s hP he hq
    rcases hP with ⟨-, hgen, hwj, htr⟩ | ⟨hsome, -⟩
    swap
    · rw [he] at hsome; cases hsome
    rcases hqe : s.queue with _ | ⟨i, rest⟩
    · exact absurd hqe hq
    obtain ⟨hi, hrest, hwlt, hnext⟩ := coord_head hgen.1 hqe
    by_cases hr : is_ready p i s.time = true
    · rcases Nat.lt_or_ge (popped s) j with hlt | hge
      · -- a chunk before the failing one: normal successful step
        obtain ⟨hgen', he', hd1, hd2⟩ := gen_step p hgen he hq (hpre _ hlt)
        left
        refine ⟨he', hgen', by omega, ?_⟩
        obtain ⟨b, hb⟩ := hpre _ hlt
        have hbi : p.chunks.getD i (Except.error 0) = Except.ok b := by rw [hi]; exact hb
        by_cases hn : has_next p s = true
        · have htrace : (drainStep p s).trace = s.trace ++
              [Ev.checkReady i true, Ev.hasNext true, Ev.nextChunk s.next, Ev.submit s.next,
               Ev.retrieveOk i b, Ev.pop i,
               Ev.append b (!s.sinkFailed) (!s.sinkFailed && !p.sinkFail s.writes),
               Ev.tick] := by
            rw [drainStep_ok_refill hqe hr hn hbi]
          intro i' c'
          rw [htrace]
          simp only [List.mem_append, List.mem_cons]
          rintro (h | h)
          · exact htr i' c' h
          · simp at h
        · have hn' : has_next p s = false := by simpa using hn
          have htrace : (drainStep p s).trace = s.trace ++
              [Ev.checkReady i true, Ev.hasNext false,
               Ev.retrieveOk i b, Ev.pop i,
               Ev.append b (!s.sinkFailed) (!s.sinkFailed && !p.sinkFail s.writes),
               Ev.tick] := by
            rw [drainStep_ok_norefill hqe hr hn' hbi]
          intro i' c'
          rw [htrace]
          simp only [List.mem_append, List.mem_cons]
          rintro (h | h)
          · exact htr i' c' h
          · simp at h
      · -- the failing chunk is at the front
        have hwj' : popped s = j := by omega
        have hbi : p.chunks.getD i (Except.error 0) = Except.error c := by
          rw [hi, hwj']; exact hjc
        have hsink_eq : (s.out, s.sinkFailed, s.writes) =
            sinkFold p ((p.chunks.take j).map chunkBytes) := by
          rw [← hwj']; exact hgen.2.2
        right
        by_cases hn : has_next p s = true
        · have hT := drainStep_err_refill hqe hr hn hbi
          have hte : (drainStep p s).err = some c := by rw [hT]
          have hto : (drainStep p s).out = s.out := by rw [hT]
          have htf : (drainStep p s).sinkFailed = s.sinkFailed := by rw [hT]
          have htw : (drainStep p s).writes = s.writes := by rw [hT]
          have htrace : (drainStep p s).trace = s.trace ++
              [Ev.checkReady i true, Ev.hasNext true, Ev.nextChunk s.next, Ev.submit s.next,
               Ev.retrieveErr i c] := by rw [hT]
          refine ⟨hte, by rw [hto, htf, htw]; exact hsink_eq, ?_⟩
          refine ⟨s.trace ++ [Ev.checkReady i true, Ev.hasNext true, Ev.nextChunk s.next,
            Ev.submit s.next], ?_, ?_⟩
          · rw [htrace, hi, hwj']
            simp
          · intro i' c'
            simp only [List.mem_append, List.mem_cons]
            rintro (h | h)
            · exact htr i' c' h
            · simp at h
        · have hn' : has_next p s = false := by simpa using hn
          have hT := drainStep_err_norefill hqe hr hn' hbi
          have hte : (drainStep p s).err = some c := by rw [hT]
          have hto : (drainStep p s).out = s.out := by rw [hT]
          have htf : (drainStep p s).sinkFailed = s.sinkFailed := by rw [hT]
          have htw : (drainStep p s).writes = s.writes := by rw [hT]
          have htrace : (drainStep p s).trace = s.trace ++
              [Ev.checkReady i true, Ev.hasNext false, Ev.retrieveErr i c] := by rw [hT]
          refine ⟨hte, by rw [hto, htf, htw]; exact hsink_eq, ?_⟩
          refine ⟨s.trace ++ [Ev.checkReady i true, Ev.hasNext false], ?_, ?_⟩
          · rw [htrace, hi, hwj']
            simp
          · intro i' c'
            simp only [List.mem_append, List.mem_cons]
            rintro (h | h)
            · exact htr i' c' h
            · simp at h
    · -- front not ready: yield
      have hr' : is_ready p i s.time = false := by simpa using hr
      have hT := drainStep_yield hqe hr'
      have hte : (drainStep p s).err = s.err := by rw [hT]
      have htrace : (drainStep p s).trace = s.trace ++
          [Ev.checkReady i false, Ev.yield, Ev.tick] := by rw [hT]
      left
      refine ⟨by rw [hte]; exact he, ?_, ?_, ?_⟩
      · rw [hT]; exact hgen
      · rw [hT]; exact hwj
      · intro i' c'
        rw [htrace]
        simp only [List.mem_append, List.mem_cons]
        rintro (h | h)
        · exact htr i' c' h
        · simp at h
  -- set up the invariant at the end of the priming loop
  have hprimed := gen_prime p (3 * tc) (by omega)
  have hprtrace : ∀ i' c', Ev.retrieveErr i' c' ∉ (prime p (3 * tc) St.init).trace := by
    have := prime_trace_inv p (fun t => ∀ i' c', Ev.retrieveErr i' c' ∉ t)
      (by intro t k hP i' c'
          simp only [List.mem_append, List.mem_cons]
          rintro (h | h)
          · exact hP i' c' h
          · simp at h)
      (by intro t hP i' c'
          simp only [List.mem_append, List.mem_cons]
          rintro (h | h)
          · exact hP i' c' h
          · simp at h)
      (3 * tc) St.init (by simp [St.init])
    exact this
  have hpop0 : popped (prime p (3 * tc) St.init) ≤ j := by
    rw [hprimed.2.2]
    omega
  unfold write_body_threads at hrun
  have hinv := drain_inv p
    (fun s => (s.err = none ∧ Gen p s ∧ popped s ≤ j ∧
        (∀ i' c', Ev.retrieveErr i' c' ∉ s.trace)) ∨
      (s.err = some c ∧
       ((s.out, s.sinkFailed, s.writes) = sinkFold p ((p.chunks.take j).map chunkBytes)) ∧
       (∃ t, s.trace = t ++ [Ev.retrieveErr j c] ∧ ∀ i' c', Ev.retrieveErr i' c' ∉ t)))
    hstep fuel _ s' hrun
    (Or.inl ⟨hprimed.2.1, hprimed.1, hpop0, hprtrace⟩)
  obtain ⟨hP, hstop⟩ := hinv
  rcases hP with ⟨he, hgen, hwj, -⟩ | ⟨hsome, hsinkst, htrc⟩
  · -- cannot finish cleanly: the failing chunk would have been reached
    exfalso
    have hnil : s'.queue = [] := hstop he
    have hlen : s'.next = p.chunks.length := hgen.1.2.2.2 hnil
    have : popped s' = p.chunks.length := by simp [popped, hnil, hlen]
    omega
  · refine ⟨hsome, ?_, htrc⟩
    rw [sinkFold_ok p hsink] at hsinkst
    exact congrArg Prod.fst hsinkst

/-- Witness for C2: five chunks with the third failing (code 77) — the run ends with
error 77, the sink holds the bytes of the first two chunks only, and the one failed
retrieval is the last event of the trace. -/
theorem c2_worker_failure_witness :
    ((write_body_threads pErr 1 20).getD St.init).err = some 77 ∧
    ((write_body_threads pErr 1 20).getD St.init).out =
      ((pErr.chunks.take 2).map chunkBytes).flatten := by
  have h := c2_worker_failure pErr 1 20 ((write_body_threads pErr 1 20).getD St.init)
    2 77 (by decide) (by rfl)
    (by intro m hm
        interval_cases m
        · exact ⟨[1], by rfl⟩
        · exact ⟨[2], by rfl⟩)
    (fun k => rfl) (by omega) (by decide)
  exact ⟨h.1, h.2.1⟩

end FMM

namespace FMM

/-- C10: if the worker pool reports zero threads, the computed inflight window is zero
and `write_body_threads` returns at once with the initial state: the priming loop's
short-circuit count check means `has_next`/`next_chunk` are never called (empty trace),
nothing is submitted, and the sink receives no bytes — even if the source has work. -/
theorem c10_zero_threads (p : Pipeline) (fuel : Nat) :
    write_body_threads p 0 fuel = some St.init ∧
    St.init.out = [] ∧ St.init.trace = [] ∧ St.init.next = 0 := by
  refine ⟨?_, rfl, rfl, rfl⟩
  unfold write_body_threads
  have h0 : prime p (3 * 0) St.init = St.init := rfl
  rw [h0]
  cases fuel
  · simp [drain, St.init]
  · simp [drain, St.init]

theorem progress_step (p : Pipeline) :
    ∀ s : St, (s.err = none → s.queue = [] → p.chunks.length ≤ s.next) →
      s.err = none → s.queue ≠ [] →
      ((drainStep p s).err = none → (drainStep p s).queue = [] →
        p.chunks.length ≤ (drainStep p s).next) := by
  intro s _ he hq
  rcases hqe : s.queue with _ | ⟨i, rest⟩
  · exact absurd hqe hq
  by_cases hr : is_ready p i s.time = true
  · rcases hc : p.chunks.getD i (Except.error 0) with c | b
    · by_cases hn : has_next p s = true
      · have hT := drainStep_err_refill hqe hr hn hc
        have h2 : (drainStep p s).err = some c := by rw [hT]
        intro hee
        rw [h2] at hee
        cases hee
      · have hT := drainStep_err_norefill hqe hr (by simpa using hn) hc
        have h2 : (drainStep p s).err = some c := by rw [hT]
        intro hee
        rw [h2] at hee
        cases hee
    · by_cases hn : has_next p s = true
      · have hT := drainStep_ok_refill hqe hr hn hc
        have h1 : (drainStep p s).queue = rest ++ [s.next] := by rw [hT]
        intro _ hnil
        rw [h1] at hnil
        simp at hnil
      · have hn' : has_next p s = false := by simpa using hn
        have hge : p.chunks.length ≤ s.next := by
          simp [has_next] at hn'
          omega
        have hT := drainStep_ok_norefill hqe hr hn' hc
        have h3 : (drainStep p s).next = s.next := by rw [hT]
        intro _ _
        rw [h3]
        exact hge
  · have hT := drainStep_yield hqe (by simpa using hr)
    have h1 : (drainStep p s).queue = s.queue := by rw [hT]
    intro _ hnil
    rw [h1, hqe] at hnil
    cases hnil

/-- C5: the pool's reported thread count is never zero (a zero request falls back to the
hardware concurrency, itself floored at one), so the window `3 × threads` is at least
one; consequently, at every loop boundary of a live run with work remaining at least one
work item is outstanding, and every run reaches completion with enough fuel. -/
theorem c5_window_positive_progress (numThreads hw : Nat) (p : Pipeline) :
    1 ≤ 3 * poolThreadCount numThreads hw ∧
    (∀ m : Nat,
      (stepN p m (prime p (3 * poolThreadCount numThreads hw) St.init)).err = none →
      (stepN p m (prime p (3 * poolThreadCount numThreads hw) St.init)).next <
        p.chunks.length →
      (stepN p m (prime p (3 * poolThreadCount numThreads hw) St.init)).queue ≠ []) ∧
    (∃ fuel s', write_body_threads p (poolThreadCount numThreads hw) fuel = some s') := by
  have hptc : 1 ≤ poolThreadCount numThreads hw := by
    unfold poolThreadCount
    split
    · omega
    · split <;> omega
  refine ⟨by omega, ?_, ?_⟩
  · intro m
    have hprimeP : (prime p (3 * poolThreadCount numThreads hw) St.init).err = none →
        (prime p (3 * poolThreadCount numThreads hw) St.init).queue = [] →
        p.chunks.length ≤ (prime p (3 * poolThreadCount numThreads hw) St.init).next := by
      obtain ⟨hq0, hnx0, _, _, _, _, _⟩ :=
        prime_spec p (3 * poolThreadCount numThreads hw) St.init
      have hq : (prime p (3 * poolThreadCount numThreads hw) St.init).queue =
          List.range' 0 (min (3 * poolThreadCount numThreads hw) p.chunks.length) := by
        rw [hq0]; rfl
      have hnx : (prime p (3 * poolThreadCount numThreads hw) St.init).next =
          min (3 * poolThreadCount numThreads hw) p.chunks.length := by
        rw [hnx0]; simp [St.init]
      intro _ hnil
      rw [hq] at hnil
      have hz : min (3 * poolThreadCount numThreads hw) p.chunks.length = 0 := by
        by_contra hcon
        rw [List.range'_eq_nil] at hnil
        exact hcon hnil
      rw [hnx]
      omega
    have h := stepN_inv p
      (fun s => s.err = none → s.queue = [] → p.chunks.length ≤ s.next)
      (progress_step p) m _ hprimeP
    intro he hlt hnil
    have := h he hnil
    omega
  · obtain ⟨f, s', hf⟩ := drain_term p (prime p (3 * poolThreadCount numThreads hw) St.init)
    exact ⟨f, s', hf⟩

/-- Witness for C5 at a degenerate configuration (requested thread count zero, hardware
concurrency zero): the window is still positive, after priming the five-chunk source the
queue is nonempty while work remains, and the run completes. -/
theorem c5_window_positive_progress_witness :
    1 ≤ 3 * poolThreadCount 0 0 ∧
    (stepN (pOkN 5) 0 (prime (pOkN 5) (3 * poolThreadCount 0 0) St.init)).queue ≠ [] ∧
    (∃ fuel s', write_body_threads (pOkN 5) (poolThreadCount 0 0) fuel = some s') := by
  obtain ⟨h1, h2, h3⟩ := c5_window_positive_progress 0 0 (pOkN 5)
  exact ⟨h1, h2 0 (by decide) (by decide), h3⟩

end FMM

namespace FMM

theorem bound_step (p : Pipeline) (W : Nat) :
    ∀ s : St, ((s.err = none → s.queue.length ≤ W) ∧ s.queue.length ≤ W + 1) →
      s.err = none → s.queue ≠ [] →
      (((drainStep p s).err = none → (drainStep p s).queue.length ≤ W) ∧
       (drainStep p s).queue.length ≤ W + 1) := by
  intro s hP he hq
  rcases hqe : s.queue with _ | ⟨i, rest⟩
  · exact absurd hqe hq
  have hql : s.queue.length = rest.length + 1 := by rw [hqe]; rfl
  have hle : rest.length + 1 ≤ W := by
    have := hP.1 he
    omega
  by_cases hr : is_ready p i s.time = true
  · rcases hc : p.chunks.getD i (Except.error 0) with c | b
    · by_cases hn : has_next p s = true
      · have hT := drainStep_err_refill hqe hr hn hc
        have h1 : (drainStep p s).queue = i :: rest ++ [s.next] := by rw [hT]
        have h2 : (drainStep p s).err = some c := by rw [hT]
        constructor
        · intro hee
          rw [h2] at hee
          cases hee
        · rw [h1]
          simp
          omega
      · have hT := drainStep_err_norefill hqe hr (by simpa using hn) hc
        have h1 : (drainStep p s).queue = s.queue := by rw [hT]
        have h2 : (drainStep p s).err = some c := by rw [hT]
        constructor
        · intro hee
          rw [h2] at hee
          cases hee
        · rw [h1]
          omega
    · by_cases hn : has_next p s = true
      · have hT := drainStep_ok_refill hqe hr hn hc
        have h1 : (drainStep p s).queue = rest ++ [s.next] := by rw [hT]
        have h2 : (drainStep p s).err = s.err := by rw [hT]
        constructor
        · intro _
          rw [h1]
          simp
          omega
        · rw [h1]
          simp
          omega
      · have hT := drainStep_ok_norefill hqe hr (by simpa using hn) hc
        have h1 : (drainStep p s).queue = rest := by rw [hT]
        have h1l : (drainStep p s).queue.length = rest.length := by rw [h1]
        constructor
        · intro _
          omega
        · omega
  · have hT := drainStep_yield hqe (by simpa using hr)
    have h1 : (drainStep p s).queue = s.queue := by rw [hT]
    have h2 : (drainStep p s).err = s.err := by rw [hT]
    rw [h1, h2]
    exact hP

theorem bound_stepN (p : Pipeline) (tc m : Nat) :
    ((stepN p m (prime p (3 * tc) St.init)).err = none →
      (stepN p m (prime p (3 * tc) St.init)).queue.length ≤ 3 * tc) ∧
    (stepN p m (prime p (3 * tc) St.init)).queue.length ≤ 3 * tc + 1 := by
  obtain ⟨hq0, _, _, _, _, _, _⟩ := prime_spec p (3 * tc) St.init
  have hq : (prime p (3 * tc) St.init).queue =
      List.range' 0 (min (3 * tc) p.chunks.length) := by
    rw [hq0]; rfl
  have hql : (prime p (3 * tc) St.init).queue.length ≤ 3 * tc := by
    rw [hq, List.length_range']
    omega
  exact stepN_inv p
    (fun s => (s.err = none → s.queue.length ≤ 3 * tc) ∧ s.queue.length ≤ 3 * tc + 1)
    (bound_step p (3 * tc)) m _ ⟨fun _ => hql, by omega⟩

theorem countP_take_le (f : Ev → Bool) (l : List Ev) (k : Nat) :
    (l.take k).countP f ≤ l.countP f := by
  conv_rhs => rw [← List.take_append_drop k l]
  rw [List.countP_append]
  omega

theorem counts_stepEvents_le (p : Pipeline) (s : St) :
    countSubmits (stepEvents p s) ≤ 1 ∧ countPops (stepEvents p s) ≤ 1 := by
  obtain ⟨q, nx, o, sf, w, t, er, tr⟩ := s
  rcases q with _ | ⟨i, rest⟩
  · simp [stepEvents, countSubmits, countPops]
  · by_cases hr : is_ready p i t = true
    · rcases hc : p.chunks.getD i (Except.error 0) with c | b <;>
        have hc' := hc <;>
        rw [List.getD_eq_getElem?_getD] at hc' <;>
        by_cases hn : has_next p ⟨i :: rest, nx, o, sf, w, t, er, tr⟩ = true <;>
        simp [stepEvents, hr, hc', refillEvents, hn, countSubmits, countPops,
          List.countP_cons]
    · simp [stepEvents, hr, countSubmits, countPops, List.countP_cons]

end FMM

namespace FMM

theorem countSubmits_take_le (l : List Ev) (k : Nat) :
    countSubmits (l.take k) ≤ countSubmits l := by
  unfold countSubmits
  exact countP_take_le _ l k

theorem countPops_take_le (l : List Ev) (k : Nat) :
    countPops (l.take k) ≤ countPops l := by
  unfold countPops
  exact countP_take_le _ l k

/-- C3 is false as stated: with one worker (window `3 × 1 = 3`) and five chunks, just
after the first drain step's refill submission the trace prefix (13 events) shows four
submitted work items and zero writes — four items submitted-but-not-yet-written,
exceeding the window of three. The bound that does hold is `window + 1` inside a step
(see the amended theorem and C9). -/
theorem c3_window_bound_cex :
    countSubmits ((((write_body_threads (pOkN 5) 1 20).getD St.init).trace).take 13) = 4 ∧
    countAppends ((((write_body_threads (pOkN 5) 1 20).getD St.init).trace).take 13) = 0 ∧
    3 * 1 < 4 := by
  refine ⟨by decide, by decide, by decide⟩

/-- C3 (amended): at every drain-loop boundary of a live (non-aborted) run the Pending
Queue holds at most `3 × worker_count` handles; mid-step — between the refill submission
and the pop/write of the completed front — and in the state abandoned by a worker
failure, it can transiently hold one more, and never exceeds `3 × worker_count + 1`. -/
theorem c3_window_bound_amended (p : Pipeline) (tc m : Nat) :
    ((stepN p m (prime p (3 * tc) St.init)).err = none →
      (stepN p m (prime p (3 * tc) St.init)).queue.length ≤ 3 * tc) ∧
    (stepN p m (prime p (3 * tc) St.init)).queue.length ≤ 3 * tc + 1 :=
  bound_stepN p tc m

/-- Witness for the amended C3: two drain steps into a five-chunk single-worker run the
queue again holds at most three handles. -/
theorem c3_window_bound_amended_witness :
    (stepN (pOkN 5) 2 (prime (pOkN 5) (3 * 1) St.init)).queue.length ≤ 3 * 1 ∧
    (stepN (pOkN 5) 2 (prime (pOkN 5) (3 * 1) St.init)).queue.length ≤ 3 * 1 + 1 := by
  obtain ⟨h1, h2⟩ := c3_window_bound_amended (pOkN 5) 1 2
  exact ⟨h1 (by decide), h2⟩

/-- C9: the Pending Queue never holds more than `3 × worker_count + 1` handles — at loop
boundaries (first conjunct) and at every micro-point inside one drain step, where the
queue length is the boundary length plus the step's submits-so-far minus pops-so-far
(second conjunct); and the `window + 1` value occurs only after the step's single refill
submission and before its front pop (equality forces exactly one submit, no pop yet). -/
theorem c9_transient_window_plus_one (p : Pipeline) (tc m k : Nat) (s : St)
    (hs : s = stepN p m (prime p (3 * tc) St.init)) :
    s.queue.length ≤ 3 * tc + 1 ∧
    (s.err = none →
      s.queue.length + countSubmits ((stepEvents p s).take k) ≤
        countPops ((stepEvents p s).take k) + (3 * tc + 1) ∧
      (s.queue.length + countSubmits ((stepEvents p s).take k) =
          countPops ((stepEvents p s).take k) + (3 * tc + 1) →
        countSubmits ((stepEvents p s).take k) = 1 ∧
        countPops ((stepEvents p s).take k) = 0)) := by
  obtain ⟨hb1, hb2⟩ := bound_stepN p tc m
  rw [← hs] at hb1 hb2
  have hcsk : countSubmits ((stepEvents p s).take k) ≤ 1 :=
    le_trans (countSubmits_take_le _ _) (counts_stepEvents_le p s).1
  refine ⟨hb2, fun he => ?_⟩
  have hW := hb1 he
  refine ⟨by omega, fun heq => ⟨by omega, by omega⟩⟩

/-- Witness for C9: at the first drain boundary of a five-chunk single-worker run
(queue full at three), four micro-events into the step — right after the refill
submission, before the pop — the transient count hits `3 + 1`, with exactly one submit
and no pop so far. -/
theorem c9_transient_window_plus_one_witness :
    (stepN (pOkN 5) 0 (prime (pOkN 5) (3 * 1) St.init)).queue.length ≤ 3 * 1 + 1 ∧
    countSubmits ((stepEvents (pOkN 5)
      (stepN (pOkN 5) 0 (prime (pOkN 5) (3 * 1) St.init))).take 4) = 1 ∧
    countPops ((stepEvents (pOkN 5)
      (stepN (pOkN 5) 0 (prime (pOkN 5) (3 * 1) St.init))).take 4) = 0 := by
  obtain ⟨h1, h2⟩ := c9_transient_window_plus_one (pOkN 5) 1 0 4 _ rfl
  have h3 := (h2 (by decide)).2 (by decide)
  exact ⟨h1, h3.1, h3.2⟩

end FMM

namespace FMM

theorem sinkFold_failed (p : Pipeline) :
    ∀ (bs : List (List Nat)) (o : List Nat) (w : Nat),
      bs.foldl (sinkStep p) (o, true, w) = (o, true, w) := by
  intro bs
  induction bs with
  | nil => intro o w; rfl
  | cons b bs ih =>
      intro o w
      have hstep : sinkStep p (o, true, w) b = (o, true, w) := by
        simp [sinkStep]
      simp only [List.foldl, hstep, ih]

theorem sinkFold_fail0 (p : Pipeline) (h0 : p.sinkFail 0 = true) :
    ∀ (b : List Nat) (bs : List (List Nat)),
      sinkFold p (b :: bs) = ([], true, 1) := by
  intro b bs
  have hstep : sinkStep p ([], false, 0) b = ([], true, 1) := by
    simp [sinkStep, h0]
  simp only [sinkFold, List.foldl, hstep]
  exact sinkFold_failed p bs [] 1

/-- C4 is false as stated: with seven chunks, one worker and a sink whose first write
fails, the run's trace records the failed write attempt (event 15, `attempted` but not
`performed`), yet a further chunk is submitted afterwards (event 20), the routine
returns normally with no failure surfaced (`err = none`), and it keeps retrieving all
chunks.  The return value of `os.write` is never inspected, so a sink failure neither
aborts the pipeline nor stops submission. -/
theorem c4_sink_failure_cex :
    (write_body_threads pSink 1 30).isSome = true ∧
    ((write_body_threads pSink 1 30).getD St.init).err = none ∧
    (((write_body_threads pSink 1 30).getD St.init).trace).get? 15 =
      some (Ev.append [1] true false) ∧
    (((write_body_threads pSink 1 30).getD St.init).trace).get? 20 =
      some (Ev.submit 4) ∧
    ((write_body_threads pSink 1 30).getD St.init).out = [] := by
  refine ⟨by decide, by decide, by decide, by decide, by decide⟩

/-- C4 (amended): the coordinator never observes a sink failure.  When the first write
fails it does not retry it and does not abort: it returns normally (no failure
surfaced), continues submitting and retrieving every remaining chunk (the source is
fully consumed and the queue drained), the stream's failbit stays set so every later
write is a no-op, and the sink ends up with no bytes; the failure is visible to the
caller only in the stream's state. -/
theorem c4_sink_failure_amended (p : Pipeline) (tc fuel : Nat) (s' : St)
    (hok : ∀ c ∈ p.chunks, ∃ b, c = Except.ok b)
    (h0 : p.sinkFail 0 = true)
    (hne : p.chunks ≠ [])
    (htc : 1 ≤ tc)
    (hrun : write_body_threads p tc fuel = some s') :
    s'.err = none ∧ s'.sinkFailed = true ∧ s'.out = [] ∧
    s'.next = p.chunks.length ∧ s'.queue = [] := by
  have hallok : ∀ m, m < p.chunks.length →
      ∃ b, p.chunks.getD m (Except.error 0) = Except.ok b := by
    intro m hm
    exact hok _ (mem_of_getD_valid hm)
  have hprimed := gen_prime p (3 * tc) (by omega)
  unfold write_body_threads at hrun
  have hinv := drain_inv p (fun s => Gen p s ∧ s.err = none)
    (gen_step_allok p hallok) fuel _ s' hrun ⟨hprimed.1, hprimed.2.1⟩
  obtain ⟨⟨hgen, herr⟩, hstop⟩ := hinv
  have hnil : s'.queue = [] := hstop herr
  have hlen : s'.next = p.chunks.length := hgen.1.2.2.2 hnil
  have hpop : popped s' = p.chunks.length := by
    simp [popped, hnil, hlen]
  have hsinkeq := hgen.2.2
  rw [hpop, List.take_length] at hsinkeq
  rcases hcc : p.chunks.map chunkBytes with _ | ⟨b, bs⟩
  · exfalso
    apply hne
    have := congrArg List.length hcc
    simp at this
    exact this
  · rw [hcc, sinkFold_fail0 p h0] at hsinkeq
    have h1 : s'.out = [] := congrArg Prod.fst hsinkeq
    have h2 : s'.sinkFailed = true := congrArg (fun x => x.2.1) hsinkeq
    exact ⟨herr, h2, h1, hlen, hnil⟩

/-- Witness for the amended C4: the seven-chunk first-write-fails run returns normally,
with the failbit set, an empty sink, and the source fully consumed. -/
theorem c4_sink_failure_amended_witness :
    ((write_body_threads pSink 1 30).getD St.init).err = none ∧
    ((write_body_threads pSink 1 30).getD St.init).sinkFailed = true ∧
    ((write_body_threads pSink 1 30).getD St.init).out = [] ∧
    ((write_body_threads pSink 1 30).getD St.init).next = pSink.chunks.length ∧
    ((write_body_threads pSink 1 30).getD St.init).queue = [] := by
  refine c4_sink_failure_amended pSink 1 30 _ ?_ (by rfl) (by simp [pSink]) (by omega) (by decide)
  intro c hc
  simp only [pSink, List.mem_map] at hc
  obtain ⟨i, -, rfl⟩ := hc
  exact ⟨_, rfl⟩

end FMM

namespace FMM

/-- C6: in a drain step whose front future is complete, whose source still has work and
whose front chunk succeeds, the step's instruction sequence is exactly: poll the front,
ask `has_next`, pull and submit one new work item (pushed to the back of the queue),
and only then pop the front and write its bytes — so the refill precedes the removal
and the write, and the queue stays as full as before the step. -/
theorem c6_refill_before_pop (p : Pipeline) (s : St) (i : Nat) (rest b : List Nat)
    (hq : s.queue = i :: rest) (hr : is_ready p i s.time = true)
    (hn : has_next p s = true)
    (hc : p.chunks.getD i (Except.error 0) = Except.ok b) :
    stepEvents p s =
      [Ev.checkReady i true, Ev.hasNext true, Ev.nextChunk s.next, Ev.submit s.next,
       Ev.retrieveOk i b, Ev.pop i,
       Ev.append b (!s.sinkFailed) (!s.sinkFailed && !p.sinkFail s.writes), Ev.tick] ∧
    (drainStep p s).queue = rest ++ [s.next] ∧
    (drainStep p s).queue.length = s.queue.length := by
  have hT := drainStep_ok_refill hq hr hn hc
  have h2 : (drainStep p s).queue = rest ++ [s.next] := by rw [hT]
  refine ⟨?_, h2, ?_⟩
  · obtain ⟨q, nx, o, sf, w, t, er, tr⟩ := s
    simp only at hq hr hn hc ⊢
    subst hq
    have hc' : p.chunks[i]?.getD (Except.error 0) = Except.ok b := by
      simpa [List.getD_eq_getElem?_getD] using hc
    simp [stepEvents, refillEvents, hr, hn, hc']
  · rw [h2, hq]
    simp

/-- Witness for C6: the first drain step of the five-chunk single-worker run refills
(submitting chunk 3) before popping chunk 0, leaving the queue `[1, 2, 3]` — still
three handles. -/
theorem c6_refill_before_pop_witness :
    (drainStep (pOkN 5) (prime (pOkN 5) (3 * 1) St.init)).queue = [1, 2] ++ [3] ∧
    (drainStep (pOkN 5) (prime (pOkN 5) (3 * 1) St.init)).queue.length =
      (prime (pOkN 5) (3 * 1) St.init).queue.length := by
  obtain ⟨h1, h2, h3⟩ := c6_refill_before_pop (pOkN 5)
    (prime (pOkN 5) (3 * 1) St.init) 0 [1, 2] [1]
    (by decide) (by decide) (by decide) (by rfl)
  constructor
  · rw [h2]
    decide
  · exact h3

/-- C7: the coordinator polls only the handle at the front of the queue — every
readiness check in a drain step's instruction sequence names the front — and when that
front handle is not complete the step is exactly poll–yield: it performs no `has_next`
call, no submission, no pop and no write, leaving queue, source position and sink
untouched, so the next iteration re-checks the same front handle. -/
theorem c7_poll_front_only (p : Pipeline) (s : St) (i : Nat) (rest : List Nat)
    (hq : s.queue = i :: rest) :
    (∀ j r, Ev.checkReady j r ∈ stepEvents p s → j = i) ∧
    (is_ready p i s.time = false →
      stepEvents p s = [Ev.checkReady i false, Ev.yield, Ev.tick] ∧
      (drainStep p s).queue = s.queue ∧ (drainStep p s).next = s.next ∧
      (drainStep p s).out = s.out) := by
  constructor
  · intro j r hmem
    obtain ⟨q, nx, o, sf, w, t, er, tr⟩ := s
    simp only at hq hmem
    subst hq
    by_cases hr : is_ready p i t = true
    · rcases hc : p.chunks.getD i (Except.error 0) with c | b <;>
        have hc' := hc <;>
        rw [List.getD_eq_getElem?_getD] at hc' <;>
        by_cases hn : has_next p ⟨i :: rest, nx, o, sf, w, t, er, tr⟩ = true <;>
        simp [stepEvents, hr, hc', refillEvents, hn] at hmem <;>
        tauto
    · have hr' : is_ready p i t = false := by simpa using hr
      simp [stepEvents, hr'] at hmem
      tauto
  · intro hr
    have hT := drainStep_yield hq hr
    have h1 : (drainStep p s).queue = s.queue := by rw [hT]
    have h2 : (drainStep p s).next = s.next := by rw [hT]
    have h3 : (drainStep p s).out = s.out := by rw [hT]
    refine ⟨?_, h1, h2, h3⟩
    obtain ⟨q, nx, o, sf, w, t, er, tr⟩ := s
    simp only at hq hr
    subst hq
    simp [stepEvents, hr]

/-- Witness for C7: in the scrambled-schedule run no chunk is ready at time zero, so
the first drain step after priming is poll–yield and changes nothing observable. -/
theorem c7_poll_front_only_witness :
    stepEvents pScr (prime pScr (3 * 2) St.init) =
      [Ev.checkReady 0 false, Ev.yield, Ev.tick] ∧
    (drainStep pScr (prime pScr (3 * 2) St.init)).queue =
      (prime pScr (3 * 2) St.init).queue ∧
    (drainStep pScr (prime pScr (3 * 2) St.init)).next =
      (prime pScr (3 * 2) St.init).next ∧
    (drainStep pScr (prime pScr (3 * 2) St.init)).out =
      (prime pScr (3 * 2) St.init).out := by
  obtain ⟨h1, h2⟩ := c7_poll_front_only pScr (prime pScr (3 * 2) St.init) 0 [1, 2, 3, 4]
    (by decide)
  exact h2 (by decide)

end FMM

namespace FMM

theorem goodTrace_append {t b : List Ev} (h1 : GoodTrace t) (h2 : GoodTrace b) :
    GoodTrace (t ++ b) := by
  intro n i hn
  by_cases hlt : n < t.length
  · rw [List.get?_append hlt] at hn
    obtain ⟨h1a, h1b⟩ := h1 n i hn
    refine ⟨h1a, ?_⟩
    have hlt' : n - 1 < t.length := by omega
    rw [List.get?_append hlt']
    exact h1b
  · push_neg at hlt
    rw [List.get?_append_right hlt] at hn
    obtain ⟨h2a, h2b⟩ := h2 _ i hn
    have hn1 : 1 ≤ n := by omega
    refine ⟨hn1, ?_⟩
    have h3 : t.length ≤ n - 1 := by omega
    rw [List.get?_append_right h3]
    have h4 : n - 1 - t.length = n - t.length - 1 := by omega
    rw [h4]
    exact h2b

theorem goodTrace_push_block (j : Nat) :
    GoodTrace [Ev.hasNext true, Ev.nextChunk j, Ev.submit j] := by
  intro n i h
  rcases n with _ | _ | _ | n <;> simp [List.get?] at h ⊢

theorem goodTrace_false_block : GoodTrace [Ev.hasNext false] := by
  intro n i h
  rcases n with _ | n <;> simp [List.get?] at h

theorem stepEvents_goodTrace (p : Pipeline) (s : St) :
    GoodTrace (stepEvents p s) ∧
    (∀ i, Ev.nextChunk i ∈ stepEvents p s → i < p.chunks.length) := by
  obtain ⟨q, nx, o, sf, w, t, er, tr⟩ := s
  rcases q with _ | ⟨i, rest⟩
  · constructor
    · intro n j h
      simp [stepEvents] at h
    · intro j h
      simp [stepEvents] at h
  · by_cases hr : is_ready p i t = true
    · have hnxlt : has_next p ⟨i :: rest, nx, o, sf, w, t, er, tr⟩ = true →
          nx < p.chunks.length := by
        intro h
        simpa [has_next] using h
      rcases hc : p.chunks.getD i (Except.error 0) with c | b <;>
        have hc' := hc <;>
        rw [List.getD_eq_getElem?_getD] at hc' <;>
        by_cases hn : has_next p ⟨i :: rest, nx, o, sf, w, t, er, tr⟩ = true
      · constructor
        · intro n j h
          rcases n with _ | _ | _ | _ | _ | n <;>
            simp [stepEvents, hr, hc', refillEvents, hn, List.get?] at h ⊢
        · intro j h
          simp [stepEvents, hr, hc', refillEvents, hn] at h
          rw [h]
          exact hnxlt hn
      · constructor
        · intro n j h
          rcases n with _ | _ | _ | n <;>
            simp [stepEvents, hr, hc', refillEvents, hn, List.get?] at h ⊢
        · intro j h
          simp [stepEvents, hr, hc', refillEvents, hn] at h
      · constructor
        · intro n j h
          rcases n with _ | _ | _ | _ | _ | _ | _ | _ | n <;>
            simp [stepEvents, hr, hc', refillEvents, hn, List.get?] at h ⊢
        · intro j h
          simp [stepEvents, hr, hc', refillEvents, hn] at h
          rw [h]
          exact hnxlt hn
      · constructor
        · intro n j h
          rcases n with _ | _ | _ | _ | _ | _ | n <;>
            simp [stepEvents, hr, hc', refillEvents, hn, List.get?] at h ⊢
        · intro j h
          simp [stepEvents, hr, hc', refillEvents, hn] at h
    · constructor
      · intro n j h
        rcases n with _ | _ | _ | n <;> simp [stepEvents, hr, List.get?] at h
      · intro j h
        simp [stepEvents, hr] at h

theorem prime_state_inv (p : Pipeline) (P : St → Prop)
    (hpush : ∀ s : St, P s → s.next < p.chunks.length →
      P (([Ev.hasNext true, Ev.nextChunk s.next, Ev.submit s.next]).foldl applyEv s))
    (hfalse : ∀ s : St, P s → P (applyEv s (Ev.hasNext false))) :
    ∀ (n : Nat) (s : St), P s → P (prime p n s) := by
  intro n
  induction n with
  | zero => intro s hP; exact hP
  | succ n ih =>
      intro s hP
      unfold prime
      by_cases h : has_next p s
      · rw [if_pos h]
        exact ih _ (hpush s hP (by simpa [has_next] using h))
      · rw [if_neg h]
        exact hfalse s hP

/-- C8: in every completed run, each `next_chunk` event in the trace is immediately
preceded by a `has_next` event that returned `true` (with nothing in between), and every
pulled work item index is within the source — the source-misuse fault (`next_chunk`
with `has_next` false) is unreachable. -/
theorem c8_next_chunk_guarded (p : Pipeline) (tc fuel : Nat) (s' : St)
    (hrun : write_body_threads p tc fuel = some s') :
    (∀ n i, s'.trace.get? n = some (Ev.nextChunk i) →
      1 ≤ n ∧ s'.trace.get? (n - 1) = some (Ev.hasNext true)) ∧
    (∀ i, Ev.nextChunk i ∈ s'.trace → i < p.chunks.length) := by
  have hprime : GoodTrace (prime p (3 * tc) St.init).trace ∧
      (∀ i, Ev.nextChunk i ∈ (prime p (3 * tc) St.init).trace → i < p.chunks.length) := by
    refine prime_state_inv p
      (fun s => GoodTrace s.trace ∧
        (∀ i, Ev.nextChunk i ∈ s.trace → i < p.chunks.length))
      ?_ ?_ (3 * tc) St.init ?_
    · intro s hP hlt
      rw [show (([Ev.hasNext true, Ev.nextChunk s.next, Ev.submit s.next]).foldl
          applyEv s).trace =
          s.trace ++ [Ev.hasNext true, Ev.nextChunk s.next, Ev.submit s.next] from
        foldl_applyEv_trace _ s]
      constructor
      · exact goodTrace_append hP.1 (goodTrace_push_block s.next)
      · intro i hi
        rcases List.mem_append.mp hi with h | h
        · exact hP.2 i h
        · simp at h
          omega
    · intro s hP
      rw [applyEv_trace]
      constructor
      · exact goodTrace_append hP.1 goodTrace_false_block
      · intro i hi
        rcases List.mem_append.mp hi with h | h
        · exact hP.2 i h
        · simp at h
    · constructor
      · intro n i h
        simp [St.init] at h
      · intro i h
        simp [St.init] at h
  unfold write_body_threads at hrun
  have hinv := drain_inv p
    (fun s => GoodTrace s.trace ∧
      (∀ i, Ev.nextChunk i ∈ s.trace → i < p.chunks.length))
    ?_ fuel _ s' hrun hprime
  · exact ⟨hinv.1.1, hinv.1.2⟩
  · intro s hP _ _
    rw [drainStep_trace]
    constructor
    · exact goodTrace_append hP.1 (stepEvents_goodTrace p s).1
    · intro i hi
      rcases List.mem_append.mp hi with h | h
      · exact hP.2 i h
      · exact (stepEvents_goodTrace p s).2 i h

/-- Witness for C8: in the five-chunk single-worker run, the `next_chunk` event at
trace position 1 is preceded at position 0 by `has_next = true`, and its index 0 is a
valid chunk. -/
theorem c8_next_chunk_guarded_witness :
    (((write_body_threads (pOkN 5) 1 20).getD St.init).trace.get? 0 =
      some (Ev.hasNext true)) ∧
    0 < (pOkN 5).chunks.length := by
  obtain ⟨h1, h2⟩ := c8_next_chunk_guarded (pOkN 5) 1 20
    ((write_body_threads (pOkN 5) 1 20).getD St.init) (by decide)
  exact ⟨(h1 1 0 (by decide)).2, h2 0 (by decide)⟩

end FMM
